import Mathlib

set_option maxHeartbeats 1000000

/-! Verification of the circuit-override puzzle core: tile model, rotation,
solvability oracle (depth-first search with wildcard endpoints), path
generation, solution-tile placement, trap sampling and the scramble step,
embedded from src/packages/games/circuit_override.py. -/

/-- Compass directions at which a tile can have an open arm. -/
inductive Dir
  | N | S | E | W
deriving DecidableEq, Fintype

/-- The eleven box-drawing tile variants of the source connection table,
named by the compass arms of the glyphs: hbar is the horizontal bar,
vbar the vertical bar, cornerES the corner open to the east and south,
and so on; teeS is the tee whose three arms are west, east and south;
cross is the four-way connector. -/
inductive Tile
  | hbar | vbar | cornerES | cornerSW | cornerNW | cornerNE
  | teeS | teeN | teeE | teeW | cross
deriving DecidableEq, Fintype

open Dir Tile

/-- Tile rotation mapping, one 90 degree clockwise turn (source ROTATION_MAP). -/
def ROTATION_MAP : Tile → Tile
  | hbar => vbar
  | vbar => hbar
  | cornerES => cornerSW
  | cornerSW => cornerNW
  | cornerNW => cornerNE
  | cornerNE => cornerES
  | teeS => teeW
  | teeW => teeN
  | teeN => teeE
  | teeE => teeS
  | cross => cross

/-- Connectivity table for tiles (source CONNECTIONS). -/
def CONNECTIONS : Tile → List Dir
  | hbar => [W, E]
  | vbar => [N, S]
  | cornerES => [E, S]
  | cornerSW => [W, S]
  | cornerNW => [W, N]
  | cornerNE => [E, N]
  | teeS => [W, E, S]
  | teeN => [W, E, N]
  | teeE => [N, S, E]
  | teeW => [N, S, W]
  | cross => [N, E, S, W]

/-- Available tile types, in the insertion order of the source
connection table (source TILES = list(CONNECTIONS.keys())). -/
def TILES : List Tile :=
  [hbar, vbar, cornerES, cornerSW, cornerNW, cornerNE,
   teeS, teeN, teeE, teeW, cross]

/-- Grid side length (source GRID_SIZE = 5). -/
abbrev GRID_SIZE : ℕ := 5

/-- A grid position: (row, column), both in range. -/
abbrev Pos := Fin 5 × Fin 5

/-- Entry cell, top-left corner. -/
def ENTRY : Pos := (⟨0, by omega⟩, ⟨0, by omega⟩)

/-- Exit cell, bottom-right corner. -/
def EXIT : Pos := (⟨4, by omega⟩, ⟨4, by omega⟩)

/-- A grid of tiles, one per position. -/
abbrev Grid := Fin 5 → Fin 5 → Tile

/-- Opposite direction (source opposite dictionary in is_solved). -/
def opposite : Dir → Dir
  | N => S
  | S => N
  | W => E
  | E => W

/-- One quarter turn clockwise acting on a direction: N to E, E to S,
S to W, W to N.  Used to state the rotation/connection compatibility. -/
def clockwiseDir : Dir → Dir
  | N => E
  | E => S
  | S => W
  | W => N

/-- Row after a move, new_row = row + (d == S) - (d == N) in the source. -/
def rowAfter (p : Pos) (d : Dir) : ℤ :=
  (p.1.val : ℤ) + (if d = S then 1 else 0) - (if d = N then 1 else 0)

/-- Column after a move, new_col = col + (d == E) - (d == W) in the source. -/
def colAfter (p : Pos) (d : Dir) : ℤ :=
  (p.2.val : ℤ) + (if d = E then 1 else 0) - (if d = W then 1 else 0)

/-- Move one cell in a direction, returning none when the result falls
outside the grid (the in-range guard of the source search loop). -/
def step_pos (p : Pos) (d : Dir) : Option Pos :=
  if h : 0 ≤ rowAfter p d ∧ rowAfter p d < 5 ∧ 0 ≤ colAfter p d ∧ colAfter p d < 5 then
    some (⟨(rowAfter p d).toNat, by omega⟩, ⟨(colAfter p d).toNat, by omega⟩)
  else none

/-- Directions available at a cell: ENTRY and EXIT are wildcards with all
four directions, any other cell exposes its tile's connection set. -/
def dirsAt (grid : Grid) (p : Pos) : List Dir :=
  if p = ENTRY ∨ p = EXIT then [N, S, E, W] else CONNECTIONS (grid p.1 p.2)

/-- Neighbours pushed by the search from cell p: for each direction open at
p, the adjacent in-range cell whose own direction set (wildcard at the
endpoints) contains the opposite direction. -/
def nbrs (grid : Grid) (p : Pos) : List Pos :=
  (dirsAt grid p).filterMap fun d =>
    match step_pos p d with
    | none => none
    | some q => if opposite d ∈ dirsAt grid q then some q else none

/-- The search loop of is_solved: pop a cell; skip it when already visited
or a trap; succeed when it is EXIT; otherwise mark it visited and push its
connected neighbours.  The fuel argument bounds the number of loop
iterations (the loop of the source terminates because each iteration
either shrinks the stack or grows the visited set). -/
def dfs (grid : Grid) (traps : Finset Pos) :
    ℕ → List Pos → Finset Pos → Bool
  | 0, _, _ => false
  | _ + 1, [], _ => false
  | fuel + 1, p :: rest, visited =>
    if p ∈ visited ∨ p ∈ traps then dfs grid traps fuel rest visited
    else if p = EXIT then true
    else dfs grid traps fuel (nbrs grid p ++ rest) (insert p visited)

/-- Solvability oracle (source is_solved): depth-first search from ENTRY.
The fuel 1000 exceeds the largest possible iteration count
5 * 25 + 1 of the loop. -/
def is_solved (grid : Grid) (traps : Finset Pos) : Bool :=
  dfs grid traps 1000 [ENTRY] ∅

/-- Specification-side single move: cell p connects to adjacent cell q when
some direction open at p leads to q and the opposite direction is open
at q (ENTRY and EXIT wildcard on both sides, via dirsAt). -/
def canConnect (grid : Grid) (p q : Pos) : Prop :=
  ∃ d, step_pos p d = some q ∧ d ∈ dirsAt grid p ∧ opposite d ∈ dirsAt grid q

/-- Specification-side solvability: EXIT is reachable from ENTRY through
valid moves none of whose cells is a trap. -/
def solvable (grid : Grid) (traps : Finset Pos) : Prop :=
  ENTRY ∉ traps ∧
    Relation.ReflTransGen (fun p q => canConnect grid p q ∧ q ∉ traps) ENTRY EXIT

/-- Loop body of the path builder: from the current cell, while EXIT is not
reached, move down when moving down is possible and either moving right is
impossible or the coin for this iteration says down; otherwise move right
(source while loop of _build_solution_path, with the random.choice calls
replaced by the explicit coin oracle, one coin per iteration).  The fuel
bounds the iteration count; the loop terminates because each step brings
the cell closer to EXIT.  The bound below justifies the move right: when
the loop has not reached EXIT and does not move down, the column is below
its maximum. -/
theorem path_right_bound (p : Pos) (c : Bool) (hE : p ≠ EXIT)
    (hd : ¬(p.1.val < 4 ∧ (¬ p.2.val < 4 ∨ c = true))) : p.2.val + 1 < 5 := by
  have ha : p.1.val < 5 := p.1.isLt
  have hb : p.2.val < 5 := p.2.isLt
  by_cases hb4 : p.2.val < 4
  · omega
  · exfalso
    have ha4 : ¬ p.1.val < 4 := fun hlt => hd ⟨hlt, Or.inl hb4⟩
    exact hE (by
      apply Prod.ext <;> apply Fin.ext <;> simp [EXIT] <;> omega)

def build_path_aux (coins : ℕ → Bool) : ℕ → ℕ → Pos → List Pos
  | 0, _, _ => []
  | fuel + 1, i, p =>
    if hE : p = EXIT then []
    else
      let q : Pos :=
        if hd : p.1.val < 4 ∧ (¬ p.2.val < 4 ∨ coins i = true) then
          (⟨p.1.val + 1, by omega⟩, p.2)
        else
          (p.1, ⟨p.2.val + 1, path_right_bound p (coins i) hE hd⟩)
      q :: build_path_aux coins fuel (i + 1) q

/-- Path generator (source _build_solution_path): the list of cells from
ENTRY to EXIT produced by the monotone random walk.  Fuel 16 exceeds the 8
steps the walk needs. -/
def build_solution_path (coins : ℕ → Bool) : List Pos :=
  ENTRY :: build_path_aux coins 16 0 ENTRY

/-- Directions whose adjacent cell belongs to the path (the neighbours set
computed by the deltas loop of _place_solution_tiles; an off-grid
neighbour is never a member of the path, matching step_pos returning
none). -/
def neighbour_dirs (path : List Pos) (p : Pos) : List Dir :=
  [N, S, E, W].filter fun d =>
    match step_pos p d with
    | some q => q ∈ path
    | none => false

/-- Tiles whose connection set is a superset of the required directions
(the candidates list comprehension of _place_solution_tiles). -/
def candidates (req : List Dir) : List Tile :=
  TILES.filter fun t => req.all (· ∈ CONNECTIONS t)

/-- Keep the accumulator unless the new tile has strictly fewer
connections; starting from none this selects the first element attaining
the minimum. -/
def pickBetter (acc : Option Tile) (t : Tile) : Option Tile :=
  match acc with
  | none => some t
  | some b =>
    if (CONNECTIONS t).length < (CONNECTIONS b).length then some t else some b

/-- First element of a tile list attaining the minimal connection count.
This is the head of the source's stable sort of the candidates by
ascending connection count. -/
def firstMinTile (l : List Tile) : Option Tile :=
  l.foldl pickBetter none

/-- Tile chosen for a required direction set: the first minimal candidate,
or the four-way connector when no candidate exists (source
candidates[0] if candidates else the cross tile). -/
def chooseTile (req : List Dir) : Tile :=
  (firstMinTile (candidates req)).getD cross

/-- Write one tile into a grid (functional version of grid mutation). -/
def setTile (g : Grid) (p : Pos) (t : Tile) : Grid :=
  fun r c => if (r, c) = p then t else g r c

/-- Solution tile placement (source _place_solution_tiles): every path cell
receives the tile chosen for its required neighbour directions; other
cells keep their tile. -/
def place_solution_tiles (g : Grid) (path : List Pos) : Grid :=
  path.foldl (fun acc p => setTile acc p (chooseTile (neighbour_dirs path p))) g

/-- All grid cells in row-major order (source all_cells list). -/
def all_cells : List Pos :=
  (List.finRange 5).flatMap fun r => (List.finRange 5).map fun c => (r, c)

/-- Sampling without replacement (source random.sample): draw k elements,
each time removing the drawn element, with the index of each draw supplied
by the pick oracle. -/
def sample (pick : ℕ → ℕ) : ℕ → List Pos → List Pos
  | 0, _ => []
  | _ + 1, [] => []
  | k + 1, x :: xs =>
    let i : Fin (x :: xs).length := ⟨pick (k + 1) % (x :: xs).length, by
      exact Nat.mod_lt _ (by simp)⟩
    (x :: xs).get i :: sample pick k ((x :: xs).eraseIdx i.val)

/-- Requested number of traps (source TRAP_COUNT = 3). -/
def TRAP_COUNT : ℕ := 3

/-- Iterated clockwise rotation of one tile. -/
def rotIter : ℕ → Tile → Tile
  | 0, t => t
  | n + 1, t => rotIter n (ROTATION_MAP t)

/-- Scramble step (source step 5 of circuit_override): rotate the tile of
every cell the number of times its turn count says, each count drawn from
zero to three. -/
def scramble (g : Grid) (turns : Pos → Fin 4) : Grid :=
  fun r c => rotIter (turns (r, c)).val (g r c)

/-- Trap placement (source step 2 of circuit_override): sample
min(count, number of off-path cells) positions from the cells not on
the solution path, capping the requested count at the available
off-path cells. -/
def place_traps (pick : ℕ → ℕ) (solution_path : List Pos) (count : ℕ) :
    List Pos :=
  let off_path := all_cells.filter (· ∉ solution_path)
  sample pick (min count off_path.length) off_path

/-- Trap set of the generation pipeline: the sampled positions, with the
count fixed at TRAP_COUNT as in the source. -/
def gen_traps (pick : ℕ → ℕ) (solution_path : List Pos) : Finset Pos :=
  (place_traps pick solution_path TRAP_COUNT).toFinset

/-- Break-if-solved fallback (source final step of the generation): when
the scrambled grid is already solved, rotate once a chosen path cell that
is neither ENTRY nor EXIT (no cell is rotated when no such cell exists). -/
def break_if_solved (grid : Grid) (traps : Finset Pos)
    (solution_path : List Pos) (pickB : ℕ) : Grid :=
  if is_solved grid traps then
    let breakable := solution_path.filter fun q => q ≠ ENTRY ∧ q ≠ EXIT
    if h : breakable ≠ [] then
      let b := breakable.get ⟨pickB % breakable.length, by
        exact Nat.mod_lt _ (List.length_pos.mpr h)⟩
      setTile grid b (ROTATION_MAP (grid b.1 b.2))
    else grid
  else grid

/-- Generation pipeline of circuit_override (source steps 1 to 5 and the
break-if-solved fallback): build a path, sample traps off the path, place
solution tiles over a random grid, scramble, and when the scrambled grid
is already solved rotate one chosen path cell that is neither ENTRY nor
EXIT once.  The oracles stand for the source's random draws: coins for
the path walk, pick for the trap sample, initGrid for the random initial
tiles, turns for the per-cell rotation counts and pickB for the choice of
the cell to break. -/
def circuit_override_setup (coins : ℕ → Bool) (pick : ℕ → ℕ) (initGrid : Grid)
    (turns : Pos → Fin 4) (pickB : ℕ) : Grid × Finset Pos :=
  let solution_path := build_solution_path coins
  let traps := gen_traps pick solution_path
  let grid2 := scramble (place_solution_tiles initGrid solution_path) turns
  (break_if_solved grid2 traps solution_path pickB, traps)

/-- Rotate the tile at one cell 90 degrees clockwise (source rotate_tile;
the source ROTATION_MAP.get default never fires because every tile is a
key of the rotation table). -/
def rotate_tile (g : Grid) (p : Pos) : Grid :=
  setTile g p (ROTATION_MAP (g p.1 p.2))

/-- Rotation request of the game loop (source lines guarding rotate_tile):
the requested integer coordinates are accepted only when both lie in
range, in which case only that cell is rotated; otherwise the request is
rejected and no cell changes. -/
def rotate_op (g : Grid) (row col : ℤ) : Option Grid :=
  if h : 0 ≤ row ∧ row < 5 ∧ 0 ≤ col ∧ col < 5 then
    some (rotate_tile g (⟨row.toNat, by omega⟩, ⟨col.toNat, by omega⟩))
  else none

/-- Reachability of EXIT from a cell through valid moves whose targets are
not traps. -/
def reach (grid : Grid) (traps : Finset Pos) (p : Pos) : Prop :=
  Relation.ReflTransGen (fun a b => canConnect grid a b ∧ b ∉ traps) p EXIT

theorem mem_nbrs {grid : Grid} {p q : Pos} :
    q ∈ nbrs grid p ↔ canConnect grid p q := by
  simp only [nbrs, List.mem_filterMap, canConnect]
  constructor
  · rintro ⟨d, hd, hf⟩
    revert hf
    cases hsp : step_pos p d with
    | none => intro hf; simp at hf
    | some q' =>
      intro hf
      by_cases hop : opposite d ∈ dirsAt grid q'
      · simp only [hop, if_true, Option.some.injEq] at hf
        subst hf
        exact ⟨d, hsp, hd, hop⟩
      · simp [hop] at hf
  · rintro ⟨d, hsp, hd, hop⟩
    exact ⟨d, hd, by rw [hsp]; simp [hop]⟩

theorem dirsAt_length_le (grid : Grid) (p : Pos) : (dirsAt grid p).length ≤ 4 := by
  unfold dirsAt
  by_cases h : p = ENTRY ∨ p = EXIT
  · simp [h]
  · rw [if_neg h]
    cases grid p.1 p.2 <;> simp [CONNECTIONS]

theorem nbrs_length_le (grid : Grid) (p : Pos) : (nbrs grid p).length ≤ 4 :=
  le_trans (List.length_filterMap_le _ _) (dirsAt_length_le grid p)

theorem escape (grid : Grid) (traps : Finset Pos) (visited : Finset Pos)
    (stack : List Pos) (hEx : EXIT ∉ visited)
    (hcl : ∀ v ∈ visited, ∀ q, canConnect grid v q → q ∉ traps →
      q ∈ visited ∨ q ∈ stack) :
    ∀ p, reach grid traps p → p ∈ visited →
      ∃ q ∈ stack, q ∉ visited ∧ q ∉ traps ∧ reach grid traps q := by
  intro p hreach
  induction hreach using Relation.ReflTransGen.head_induction_on with
  | refl => intro hv; exact absurd hv hEx
  | @head a b hab htail IH =>
    intro hv
    by_cases hbv : b ∈ visited
    · exact IH hbv
    · rcases hcl a hv b hab.1 hab.2 with hmem | hmem
      · exact absurd hmem hbv
      · exact ⟨b, hmem, hbv, hab.2, htail⟩

theorem dfs_correct (grid : Grid) (traps : Finset Pos) :
    ∀ (fuel : ℕ) (stack : List Pos) (visited : Finset Pos),
      5 * (25 - visited.card) + stack.length ≤ fuel →
      (∀ v ∈ visited, v ∉ traps) →
      EXIT ∉ visited →
      (∀ v ∈ visited, ∀ q, canConnect grid v q → q ∉ traps →
        q ∈ visited ∨ q ∈ stack) →
      (dfs grid traps fuel stack visited = true ↔
        ∃ p ∈ stack, p ∉ traps ∧ reach grid traps p) := by
  intro fuel
  induction fuel with
  | zero =>
    intro stack visited hfuel _ _ _
    have hcard : visited.card ≤ 25 := by
      have := Finset.card_le_univ visited
      simpa using this
    have hlen : stack.length = 0 := by omega
    rw [List.length_eq_zero] at hlen
    subst hlen
    simp [dfs]
  | succ fuel IH =>
    intro stack visited hfuel htr hEx hcl
    match stack with
    | [] => simp [dfs]
    | p :: rest =>
      by_cases h1 : p ∈ visited ∨ p ∈ traps
      · have hstep : dfs grid traps (fuel + 1) (p :: rest) visited
            = dfs grid traps fuel rest visited := by
          simp only [dfs]
          rw [if_pos h1]
        rw [hstep]
        have hcl' : ∀ v ∈ visited, ∀ q, canConnect grid v q → q ∉ traps →
            q ∈ visited ∨ q ∈ rest := by
          intro v hv q hconn hq
          rcases hcl v hv q hconn hq with hm | hm
          · exact Or.inl hm
          · rcases List.mem_cons.mp hm with rfl | hm
            · rcases h1 with hh | hh
              · exact Or.inl hh
              · exact absurd hh hq
            · exact Or.inr hm
        rw [IH rest visited (by simp at hfuel ⊢; omega) htr hEx hcl']
        constructor
        · rintro ⟨x, hx, hxt, hxr⟩
          exact ⟨x, List.mem_cons_of_mem _ hx, hxt, hxr⟩
        · rintro ⟨x, hx, hxt, hxr⟩
          rcases List.mem_cons.mp hx with rfl | hx
          · have hv : x ∈ visited := by
              rcases h1 with hh | hh
              · exact hh
              · exact absurd hh hxt
            rcases escape grid traps visited (x :: rest) hEx hcl x hxr hv with
              ⟨q, hq, hqv, hqt, hqr⟩
            rcases List.mem_cons.mp hq with rfl | hq
            · exact absurd hv hqv
            · exact ⟨q, hq, hqt, hqr⟩
          · exact ⟨x, hx, hxt, hxr⟩
      · push_neg at h1
        obtain ⟨hpv, hpt⟩ := h1
        by_cases hx : p = EXIT
        · subst hx
          have hstep : dfs grid traps (fuel + 1) (EXIT :: rest) visited = true := by
            simp only [dfs]
            rw [if_neg (by push_neg; exact ⟨hpv, hpt⟩)]
            simp
          rw [hstep]
          simp only [true_iff]
          exact ⟨EXIT, List.mem_cons_self _ _, hpt, Relation.ReflTransGen.refl⟩
        · have hstep : dfs grid traps (fuel + 1) (p :: rest) visited
              = dfs grid traps fuel (nbrs grid p ++ rest) (insert p visited) := by
            simp only [dfs]
            rw [if_neg (by push_neg; exact ⟨hpv, hpt⟩), if_neg hx]
          rw [hstep]
          have hcard : (insert p visited).card = visited.card + 1 :=
            Finset.card_insert_of_not_mem hpv
          have hcardle : (insert p visited).card ≤ 25 := by
            have := Finset.card_le_univ (insert p visited)
            simpa using this
          have hfuel' : 5 * (25 - (insert p visited).card)
              + (nbrs grid p ++ rest).length ≤ fuel := by
            have hnl : (nbrs grid p).length ≤ 4 := nbrs_length_le grid p
            simp only [List.length_append] at *
            simp only [List.length_cons] at hfuel
            omega
          have htr' : ∀ v ∈ insert p visited, v ∉ traps := by
            intro v hv
            rcases Finset.mem_insert.mp hv with rfl | hv
            · exact hpt
            · exact htr v hv
          have hEx' : EXIT ∉ insert p visited := by
            rw [Finset.mem_insert]
            push_neg
            exact ⟨fun hh => hx hh.symm, hEx⟩
          have hcl' : ∀ v ∈ insert p visited, ∀ q, canConnect grid v q →
              q ∉ traps → q ∈ insert p visited ∨ q ∈ nbrs grid p ++ rest := by
            intro v hv q hconn hq
            rcases Finset.mem_insert.mp hv with rfl | hv
            · exact Or.inr (List.mem_append_left _ (mem_nbrs.mpr hconn))
            · rcases hcl v hv q hconn hq with hm | hm
              · exact Or.inl (Finset.mem_insert_of_mem hm)
              · rcases List.mem_cons.mp hm with rfl | hm
                · exact Or.inl (Finset.mem_insert_self _ _)
                · exact Or.inr (List.mem_append_right _ hm)
          rw [IH _ _ hfuel' htr' hEx' hcl']
          constructor
          · rintro ⟨y, hy, hyt, hyr⟩
            rcases List.mem_append.mp hy with hy | hy
            · refine ⟨p, List.mem_cons_self _ _, hpt, ?_⟩
              exact Relation.ReflTransGen.head ⟨mem_nbrs.mp hy, hyt⟩ hyr
            · exact ⟨y, List.mem_cons_of_mem _ hy, hyt, hyr⟩
          · rintro ⟨y, hy, hyt, hyr⟩
            rcases List.mem_cons.mp hy with rfl | hy
            · rcases (Relation.ReflTransGen.cases_head hyr) with rfl | ⟨m, hm, hmr⟩
              · exact absurd rfl hx
              · exact ⟨m, List.mem_append_left _ (mem_nbrs.mpr hm.1), hm.2, hmr⟩
            · exact ⟨y, List.mem_append_right _ hy, hyt, hyr⟩

/-- Coordinate sum of a position; it grows by one along the generated
path, which drives all length and distinctness arguments. -/
def sumPos (p : Pos) : ℕ := p.1.val + p.2.val

/-- One unit step downward or rightward. -/
def unitStep (a b : Pos) : Prop :=
  (b.1.val = a.1.val + 1 ∧ b.2 = a.2) ∨ (b.1 = a.1 ∧ b.2.val = a.2.val + 1)

theorem sum_of_unitStep {a b : Pos} (h : unitStep a b) :
    sumPos b = sumPos a + 1 := by
  rcases h with ⟨h1, h2⟩ | ⟨h1, h2⟩ <;> simp only [sumPos, h1, h2] <;> omega

theorem unitStep_down : ∀ a b : Pos,
    b.1.val = a.1.val + 1 ∧ b.2 = a.2 →
      step_pos a Dir.S = some b ∧ step_pos b Dir.N = some a := by decide

theorem unitStep_right : ∀ a b : Pos,
    b.1 = a.1 ∧ b.2.val = a.2.val + 1 →
      step_pos a Dir.E = some b ∧ step_pos b Dir.W = some a := by decide

theorem eq_EXIT_of_sum (p : Pos) (h : 8 ≤ sumPos p) : p = EXIT := by
  have h1 : p.1.val < 5 := p.1.isLt
  have h2 : p.2.val < 5 := p.2.isLt
  unfold sumPos at h
  apply Prod.ext <;> apply Fin.ext <;> simp [EXIT] <;> omega

theorem sumPos_EXIT : sumPos EXIT = 8 := rfl

theorem build_path_aux_succ (coins : ℕ → Bool) (fuel i : ℕ) (p : Pos)
    (hE : p ≠ EXIT) :
    ∃ q, build_path_aux coins (fuel + 1) i p
        = q :: build_path_aux coins fuel (i + 1) q ∧ unitStep p q := by
  simp only [build_path_aux]
  rw [dif_neg hE]
  by_cases hd : p.1.val < 4 ∧ (¬ p.2.val < 4 ∨ coins i = true)
  · refine ⟨(⟨p.1.val + 1, by omega⟩, p.2), ?_, Or.inl ⟨rfl, rfl⟩⟩
    rw [dif_pos hd]
  · refine ⟨(p.1, ⟨p.2.val + 1, path_right_bound p (coins i) hE hd⟩),
      ?_, Or.inr ⟨rfl, rfl⟩⟩
    rw [dif_neg hd]

theorem build_path_aux_spec (coins : ℕ → Bool) :
    ∀ (fuel i : ℕ) (p : Pos), 8 - sumPos p ≤ fuel →
      (build_path_aux coins fuel i p).length = 8 - sumPos p ∧
      List.Chain' unitStep (p :: build_path_aux coins fuel i p) ∧
      (p :: build_path_aux coins fuel i p).getLast? = some EXIT := by
  intro fuel
  induction fuel with
  | zero =>
    intro i p hfuel
    have hp : p = EXIT := eq_EXIT_of_sum p (by omega)
    subst hp
    refine ⟨?_, by simp [build_path_aux], by simp [build_path_aux]⟩
    simp only [build_path_aux, List.length_nil, sumPos_EXIT]
  | succ fuel IH =>
    intro i p hfuel
    by_cases hE : p = EXIT
    · subst hE
      have haux : build_path_aux coins (fuel + 1) i EXIT = [] := by
        simp [build_path_aux]
      refine ⟨?_, by simp [haux], by simp [haux]⟩
      simp only [haux, List.length_nil, sumPos_EXIT]
    · obtain ⟨q, heq, hstep⟩ := build_path_aux_succ coins fuel i p hE
      have hsum : sumPos q = sumPos p + 1 := sum_of_unitStep hstep
      have hple : sumPos p < 8 := by
        by_contra hge
        exact hE (eq_EXIT_of_sum p (by omega))
      obtain ⟨hlen, hchain, hlast⟩ := IH (i + 1) q (by omega)
      refine ⟨?_, ?_, ?_⟩
      · rw [heq]
        simp only [List.length_cons, hlen]
        omega
      · rw [heq]
        exact List.chain'_cons.mpr ⟨hstep, hchain⟩
      · rw [heq, List.getLast?_cons_cons]
        exact hlast

theorem build_solution_path_length (coins : ℕ → Bool) :
    (build_solution_path coins).length = 9 := by
  obtain ⟨hlen, -, -⟩ := build_path_aux_spec coins 16 0 ENTRY (by decide)
  simp [build_solution_path, hlen]
  rfl

theorem build_solution_path_chain (coins : ℕ → Bool) :
    List.Chain' unitStep (build_solution_path coins) := by
  obtain ⟨-, hchain, -⟩ := build_path_aux_spec coins 16 0 ENTRY (by decide)
  exact hchain

theorem build_solution_path_last (coins : ℕ → Bool) :
    (build_solution_path coins).getLast? = some EXIT := by
  obtain ⟨-, -, hlast⟩ := build_path_aux_spec coins 16 0 ENTRY (by decide)
  exact hlast

theorem chain_sum_pairwise (l : List Pos) (h : List.Chain' unitStep l) :
    List.Pairwise (fun a b => sumPos a < sumPos b) l := by
  have h2 : List.Chain' (fun a b => sumPos a < sumPos b) l :=
    List.Chain'.imp (fun a b hab => by rw [sum_of_unitStep hab]; omega) h
  exact (@List.chain'_iff_pairwise Pos (fun a b => sumPos a < sumPos b)
    ⟨fun a b c h1 h2 => lt_trans h1 h2⟩ l).mp h2

theorem nodup_of_chain (l : List Pos) (h : List.Chain' unitStep l) :
    l.Nodup :=
  (chain_sum_pairwise l h).imp fun hlt heq => absurd (heq ▸ hlt) (lt_irrefl _)

theorem chain_sum_get : ∀ (l : List Pos) (a : Pos),
    List.Chain' unitStep (a :: l) →
    ∀ (j : ℕ) (hj : j < (a :: l).length),
      sumPos ((a :: l).get ⟨j, hj⟩) = sumPos a + j := by
  intro l
  induction l with
  | nil =>
    intro a _ j hj
    match j, hj with
    | 0, _ => simp
    | j + 1, hj =>
      exfalso
      simp only [List.length_cons, List.length_nil] at hj
      omega
  | cons b l IH =>
    intro a hchain j hj
    match j, hj with
    | 0, _ => simp
    | j + 1, hj =>
      obtain ⟨hab, hchain'⟩ := List.chain'_cons.mp hchain
      have hstep := IH b hchain' j (by simpa using hj)
      simp only [List.get_cons_succ]
      rw [hstep, sum_of_unitStep hab]
      omega

theorem is_solved_eq_true_iff (grid : Grid) (traps : Finset Pos) :
    is_solved grid traps = true ↔ solvable grid traps := by
  unfold is_solved solvable
  rw [dfs_correct grid traps 1000 [ENTRY] ∅ (by simp) (by simp) (by simp) (by simp)]
  constructor
  · rintro ⟨p, hp, hpt, hpr⟩
    rcases List.mem_singleton.mp hp with rfl
    exact ⟨hpt, hpr⟩
  · rintro ⟨ht, hr⟩
    exact ⟨ENTRY, List.mem_singleton.mpr rfl, ht, hr⟩

theorem all_dirs_mem (d : Dir) : d ∈ [N, S, E, W] := by cases d <;> simp

theorem mem_TILES (t : Tile) : t ∈ TILES := by cases t <;> simp [TILES]

theorem cross_superset (req : List Dir) :
    req.all (· ∈ CONNECTIONS cross) = true := by
  rw [List.all_eq_true]
  intro d _
  apply decide_eq_true
  cases d <;> simp [CONNECTIONS]

theorem pickBetter_some (acc : Option Tile) (x : Tile) :
    ∃ b, pickBetter acc x = some b := by
  cases acc with
  | none => exact ⟨x, rfl⟩
  | some b =>
    simp only [pickBetter]
    by_cases hlt : (CONNECTIONS x).length < (CONNECTIONS b).length
    · exact ⟨x, by rw [if_pos hlt]⟩
    · exact ⟨b, by rw [if_neg hlt]⟩

theorem pickBetter_le (acc : Option Tile) (x b : Tile)
    (h : pickBetter acc x = some b) :
    (CONNECTIONS b).length ≤ (CONNECTIONS x).length ∧
      ∀ c, acc = some c → (CONNECTIONS b).length ≤ (CONNECTIONS c).length := by
  cases acc with
  | none =>
    simp only [pickBetter, Option.some.injEq] at h
    subst h
    exact ⟨le_refl _, fun c hc => by simp at hc⟩
  | some c =>
    simp only [pickBetter] at h
    by_cases hlt : (CONNECTIONS x).length < (CONNECTIONS c).length
    · rw [if_pos hlt, Option.some.injEq] at h
      subst h
      exact ⟨le_refl _, fun e he => by
        rw [Option.some.injEq] at he
        subst he
        omega⟩
    · rw [if_neg hlt, Option.some.injEq] at h
      subst h
      exact ⟨by omega, fun e he => by
        rw [Option.some.injEq] at he
        subst he
        exact le_refl _⟩

theorem foldl_pickBetter_some :
    ∀ (l : List Tile) (acc : Tile),
      ∃ t, List.foldl pickBetter (some acc) l = some t := by
  intro l
  induction l with
  | nil => exact fun acc => ⟨acc, rfl⟩
  | cons x xs IH =>
    intro acc
    obtain ⟨b, hb⟩ := pickBetter_some (some acc) x
    simp only [List.foldl_cons, hb]
    exact IH b

theorem foldl_pickBetter_mem :
    ∀ (l : List Tile) (acc : Option Tile) (t : Tile),
      List.foldl pickBetter acc l = some t → acc = some t ∨ t ∈ l := by
  intro l
  induction l with
  | nil => exact fun acc t h => Or.inl h
  | cons x xs IH =>
    intro acc t h
    simp only [List.foldl_cons] at h
    rcases IH (pickBetter acc x) t h with hacc | hmem
    · cases acc with
      | none =>
        simp only [pickBetter, Option.some.injEq] at hacc
        exact Or.inr (hacc ▸ List.mem_cons_self _ _)
      | some b =>
        simp only [pickBetter] at hacc
        by_cases hlt : (CONNECTIONS x).length < (CONNECTIONS b).length
        · rw [if_pos hlt, Option.some.injEq] at hacc
          exact Or.inr (hacc ▸ List.mem_cons_self _ _)
        · rw [if_neg hlt] at hacc
          exact Or.inl hacc
    · exact Or.inr (List.mem_cons_of_mem _ hmem)

theorem foldl_pickBetter_le :
    ∀ (l : List Tile) (acc : Option Tile) (t : Tile),
      List.foldl pickBetter acc l = some t →
      (∀ b, acc = some b → (CONNECTIONS t).length ≤ (CONNECTIONS b).length) ∧
        ∀ u ∈ l, (CONNECTIONS t).length ≤ (CONNECTIONS u).length := by
  intro l
  induction l with
  | nil =>
    intro acc t h
    refine ⟨fun b hb => ?_, by simp⟩
    simp only [List.foldl_nil] at h
    subst h
    rw [Option.some.injEq] at hb
    subst hb
    exact le_refl _
  | cons x xs IH =>
    intro acc t h
    simp only [List.foldl_cons] at h
    obtain ⟨b0, hb0⟩ := pickBetter_some acc x
    rw [hb0] at h
    obtain ⟨hacc', hxs⟩ := IH (some b0) t h
    have htb0 : (CONNECTIONS t).length ≤ (CONNECTIONS b0).length := hacc' b0 rfl
    obtain ⟨hbx, hbacc⟩ := pickBetter_le acc x b0 hb0
    refine ⟨fun c hc => le_trans htb0 (hbacc c hc), ?_⟩
    intro u hu
    rcases List.mem_cons.mp hu with rfl | hu
    · exact le_trans htb0 hbx
    · exact hxs u hu

theorem candidates_ne_nil (req : List Dir) : candidates req ≠ [] :=
  List.ne_nil_of_mem
    (List.mem_filter.mpr ⟨mem_TILES cross, cross_superset req⟩)

theorem chooseTile_mem_candidates (req : List Dir) :
    chooseTile req ∈ candidates req := by
  unfold chooseTile firstMinTile
  rcases hc : candidates req with _ | ⟨x, xs⟩
  · exact absurd hc (candidates_ne_nil req)
  · simp only [List.foldl_cons]
    obtain ⟨t, ht⟩ := foldl_pickBetter_some xs x
    have hx : pickBetter none x = some x := rfl
    rw [hx, ht]
    rcases foldl_pickBetter_mem xs (some x) t ht with hacc | hmem
    · rw [Option.some.injEq] at hacc
      subst hacc
      simp
    · simp [hmem]

theorem chooseTile_superset (req : List Dir) :
    ∀ d ∈ req, d ∈ CONNECTIONS (chooseTile req) := by
  intro d hd
  have hmem := chooseTile_mem_candidates req
  rw [candidates, List.mem_filter] at hmem
  have hall := List.all_eq_true.mp hmem.2 d hd
  exact of_decide_eq_true hall

theorem chooseTile_min (req : List Dir) (u : Tile)
    (hu : ∀ d ∈ req, d ∈ CONNECTIONS u) :
    (CONNECTIONS (chooseTile req)).length ≤ (CONNECTIONS u).length := by
  have hucand : u ∈ candidates req :=
    List.mem_filter.mpr ⟨mem_TILES u,
      List.all_eq_true.mpr fun d hd => decide_eq_true (hu d hd)⟩
  unfold chooseTile firstMinTile
  rcases hc : candidates req with _ | ⟨x, xs⟩
  · exact absurd hc (candidates_ne_nil req)
  · simp only [List.foldl_cons]
    obtain ⟨t, ht⟩ := foldl_pickBetter_some xs x
    have hx : pickBetter none x = some x := rfl
    rw [hx, ht]
    obtain ⟨hacc, hxs⟩ := foldl_pickBetter_le xs (some x) t ht
    rw [hc] at hucand
    rcases List.mem_cons.mp hucand with rfl | hu'
    · exact hacc u rfl
    · exact hxs u hu'


theorem setTile_same (g : Grid) (p : Pos) (t : Tile) :
    setTile g p t p.1 p.2 = t := by
  simp [setTile]

theorem setTile_other (g : Grid) (p q : Pos) (t : Tile) (h : q ≠ p) :
    setTile g p t q.1 q.2 = g q.1 q.2 := by
  simp only [setTile]
  rw [if_neg]
  rw [Prod.mk.eta]
  exact h

theorem place_fold_not_mem (path : List Pos) :
    ∀ (l : List Pos) (g : Grid) (p : Pos), p ∉ l →
      (l.foldl (fun acc q => setTile acc q (chooseTile (neighbour_dirs path q)))
        g) p.1 p.2 = g p.1 p.2 := by
  intro l
  induction l with
  | nil => intro g p _; rfl
  | cons x xs IH =>
    intro g p hp
    have hpx : p ≠ x := fun h => hp (h ▸ List.mem_cons_self _ _)
    have hpxs : p ∉ xs := fun h => hp (List.mem_cons_of_mem _ h)
    simp only [List.foldl_cons]
    rw [IH _ p hpxs]
    exact setTile_other g x p _ hpx

theorem place_fold_mem (path : List Pos) :
    ∀ (l : List Pos) (g : Grid) (p : Pos), l.Nodup → p ∈ l →
      (l.foldl (fun acc q => setTile acc q (chooseTile (neighbour_dirs path q)))
        g) p.1 p.2 = chooseTile (neighbour_dirs path p) := by
  intro l
  induction l with
  | nil => intro g p _ hp; simp at hp
  | cons x xs IH =>
    intro g p hnd hp
    obtain ⟨hx, hnd'⟩ := List.nodup_cons.mp hnd
    simp only [List.foldl_cons]
    rcases List.mem_cons.mp hp with rfl | hp'
    · rw [place_fold_not_mem path xs _ p hx]
      exact setTile_same g p _
    · exact IH _ p hnd' hp'

theorem place_at_mem (g : Grid) (path : List Pos) (p : Pos)
    (hnd : path.Nodup) (hp : p ∈ path) :
    place_solution_tiles g path p.1 p.2 = chooseTile (neighbour_dirs path p) :=
  place_fold_mem path path g p hnd hp

theorem place_at_not_mem (g : Grid) (path : List Pos) (p : Pos)
    (hp : p ∉ path) :
    place_solution_tiles g path p.1 p.2 = g p.1 p.2 :=
  place_fold_not_mem path path g p hp

theorem mem_neighbour_dirs {path : List Pos} {p q : Pos} {d : Dir}
    (hsp : step_pos p d = some q) (hq : q ∈ path) :
    d ∈ neighbour_dirs path p := by
  unfold neighbour_dirs
  rw [List.mem_filter]
  refine ⟨all_dirs_mem d, ?_⟩
  simp only [hsp]
  exact decide_eq_true hq

theorem chain'_imp_mem {S R : Pos → Pos → Prop} :
    ∀ (l : List Pos), List.Chain' S l →
      (∀ a ∈ l, ∀ b ∈ l, S a b → R a b) → List.Chain' R l := by
  intro l
  induction l with
  | nil => intro _ _; simp
  | cons x xs IH =>
    intro h H
    cases xs with
    | nil => simp
    | cons y ys =>
      obtain ⟨hxy, h'⟩ := List.chain'_cons.mp h
      refine List.chain'_cons.mpr ⟨?_, ?_⟩
      · exact H x (List.mem_cons_self _ _) y
          (List.mem_cons_of_mem _ (List.mem_cons_self _ _)) hxy
      · exact IH h' fun a ha b hb hab =>
          H a (List.mem_cons_of_mem _ ha) b (List.mem_cons_of_mem _ hb) hab

theorem chain'_reflTransGen {R : Pos → Pos → Prop} :
    ∀ (l : List Pos) (a b : Pos), List.Chain' R (a :: l) →
      (a :: l).getLast? = some b → Relation.ReflTransGen R a b := by
  intro l
  induction l with
  | nil =>
    intro a b _ hlast
    simp only [List.getLast?_singleton, Option.some.injEq] at hlast
    subst hlast
    exact Relation.ReflTransGen.refl
  | cons c l IH =>
    intro a b hch hlast
    obtain ⟨hac, hch'⟩ := List.chain'_cons.mp hch
    rw [List.getLast?_cons_cons] at hlast
    exact (IH c b hch' hlast).head hac

theorem dir_mem_dirsAt_placed (g : Grid) (path : List Pos)
    (hnd : path.Nodup) (p q : Pos) (d : Dir) (hp : p ∈ path) (hq : q ∈ path)
    (hsp : step_pos p d = some q) :
    d ∈ dirsAt (place_solution_tiles g path) p := by
  unfold dirsAt
  by_cases hend : p = ENTRY ∨ p = EXIT
  · rw [if_pos hend]
    exact all_dirs_mem d
  · rw [if_neg hend, place_at_mem g path p hnd hp]
    exact chooseTile_superset _ d (mem_neighbour_dirs hsp hq)

theorem placed_solvable (path : List Pos) (g : Grid) (traps : Finset Pos)
    (hhead : path.head? = some ENTRY)
    (hlast : path.getLast? = some EXIT)
    (hchain : List.Chain' unitStep path)
    (hdisj : ∀ p ∈ path, p ∉ traps) :
    solvable (place_solution_tiles g path) traps := by
  have hnd : path.Nodup := nodup_of_chain path hchain
  rcases path with _ | ⟨a, rest⟩
  · simp at hhead
  · simp only [List.head?_cons, Option.some.injEq] at hhead
    subst hhead
    refine ⟨hdisj ENTRY (List.mem_cons_self _ _), ?_⟩
    have hR : List.Chain'
        (fun p q => canConnect (place_solution_tiles g (ENTRY :: rest)) p q
          ∧ q ∉ traps) (ENTRY :: rest) := by
      apply chain'_imp_mem (ENTRY :: rest) hchain
      intro x hx y hy hxy
      refine ⟨?_, hdisj y hy⟩
      rcases hxy with ⟨h1, h2⟩ | ⟨h1, h2⟩
      · obtain ⟨hsab, hsba⟩ := unitStep_down x y ⟨h1, h2⟩
        exact ⟨Dir.S, hsab,
          dir_mem_dirsAt_placed g _ hnd x y Dir.S hx hy hsab,
          dir_mem_dirsAt_placed g _ hnd y x Dir.N hy hx hsba⟩
      · obtain ⟨hsab, hsba⟩ := unitStep_right x y ⟨h1, h2⟩
        exact ⟨Dir.E, hsab,
          dir_mem_dirsAt_placed g _ hnd x y Dir.E hx hy hsab,
          dir_mem_dirsAt_placed g _ hnd y x Dir.W hy hx hsba⟩
    exact chain'_reflTransGen rest ENTRY EXIT hR hlast

theorem get_not_mem_eraseIdx :
    ∀ (l : List Pos), l.Nodup → ∀ (i : ℕ) (h : i < l.length),
      l.get ⟨i, h⟩ ∉ l.eraseIdx i := by
  intro l
  induction l with
  | nil => intro _ i h; simp at h
  | cons x xs IH =>
    intro hnd i h
    obtain ⟨hx, hnd'⟩ := List.nodup_cons.mp hnd
    match i, h with
    | 0, _ =>
      simpa [List.eraseIdx] using hx
    | i + 1, h =>
      simp only [List.eraseIdx, List.get_cons_succ, List.mem_cons]
      push_neg
      refine ⟨?_, IH hnd' i (by simpa using h)⟩
      intro heq
      exact hx (heq ▸ List.get_mem xs i (by simpa using h))

theorem sample_subset :
    ∀ (pick : ℕ → ℕ) (k : ℕ) (l : List Pos), ∀ x ∈ sample pick k l, x ∈ l := by
  intro pick k
  induction k with
  | zero => intro l x hx; simp [sample] at hx
  | succ k IH =>
    intro l x hx
    match l with
    | [] => simp [sample] at hx
    | y :: ys =>
      simp only [sample, List.mem_cons] at hx
      rcases hx with rfl | hx
      · exact List.get_mem _ _ _
      · exact (List.eraseIdx_sublist (y :: ys) _).mem (IH _ x hx)

theorem sample_length :
    ∀ (pick : ℕ → ℕ) (k : ℕ) (l : List Pos), k ≤ l.length →
      (sample pick k l).length = k := by
  intro pick k
  induction k with
  | zero => intro l _; simp [sample]
  | succ k IH =>
    intro l hk
    match l with
    | [] => simp at hk
    | y :: ys =>
      simp only [sample, List.length_cons]
      rw [IH]
      have hlt : pick (k + 1) % (ys.length + 1) < (y :: ys).length :=
        Nat.mod_lt _ (by omega)
      rw [List.length_eraseIdx, if_pos hlt]
      simp only [List.length_cons] at hk ⊢
      omega

theorem sample_nodup :
    ∀ (pick : ℕ → ℕ) (k : ℕ) (l : List Pos), l.Nodup →
      (sample pick k l).Nodup := by
  intro pick k
  induction k with
  | zero => intro l _; simp [sample]
  | succ k IH =>
    intro l hnd
    match l with
    | [] => simp [sample]
    | y :: ys =>
      simp only [sample]
      rw [List.nodup_cons]
      refine ⟨?_, IH _ (hnd.sublist (List.eraseIdx_sublist _ _))⟩
      intro hmem
      exact get_not_mem_eraseIdx (y :: ys) hnd _ _
        (sample_subset pick k _ _ hmem)

theorem rotIter_map (k : ℕ) (t : Tile) :
    ROTATION_MAP (rotIter k t) = rotIter k (ROTATION_MAP t) := by
  induction k generalizing t with
  | zero => rfl
  | succ k IH => simp only [rotIter, IH]

theorem rotIter_add (m n : ℕ) (t : Tile) :
    rotIter (m + n) t = rotIter m (rotIter n t) := by
  induction n generalizing t with
  | zero => rfl
  | succ n IH =>
    have h1 : m + (n + 1) = (m + n) + 1 := by omega
    rw [h1]
    simp only [rotIter]
    rw [IH]

theorem rotIter_four (t : Tile) : rotIter 4 t = t := by cases t <;> rfl

theorem rotIter_four_mul (m : ℕ) (t : Tile) : rotIter (4 * m) t = t := by
  induction m with
  | zero => rfl
  | succ m IH =>
    have h1 : 4 * (m + 1) = 4 * m + 4 := by omega
    rw [h1, rotIter_add, rotIter_four, IH]

theorem rotIter_cancel (k : ℕ) (t : Tile) :
    rotIter ((4 - k % 4) % 4) (rotIter k t) = t := by
  rw [← rotIter_add]
  obtain ⟨m, hm⟩ : ∃ m, (4 - k % 4) % 4 + k = 4 * m := ⟨(k + 3) / 4, by omega⟩
  rw [hm, rotIter_four_mul]

theorem break_if_solved_cases (g : Grid) (traps : Finset Pos)
    (path : List Pos) (pickB : ℕ) (r c : Fin 5) :
    break_if_solved g traps path pickB r c = g r c ∨
      break_if_solved g traps path pickB r c = ROTATION_MAP (g r c) := by
  unfold break_if_solved
  by_cases hs : is_solved g traps = true
  · rw [if_pos hs]
    by_cases hb : (path.filter fun q => q ≠ ENTRY ∧ q ≠ EXIT) ≠ []
    · rw [dif_pos hb]
      set b := (path.filter fun q => q ≠ ENTRY ∧ q ≠ EXIT).get
        ⟨pickB % (path.filter fun q => q ≠ ENTRY ∧ q ≠ EXIT).length,
          Nat.mod_lt _ (List.length_pos.mpr hb)⟩ with hbdef
      by_cases heq : ((r, c) : Pos) = b
      · right
        simp only [setTile]
        rw [if_pos heq]
        have h1 : b.1 = r := by rw [← heq]
        have h2 : b.2 = c := by rw [← heq]
        rw [h1, h2]
      · left
        simp only [setTile]
        rw [if_neg heq]
    · rw [dif_neg hb]
      left
      rfl
  · rw [if_neg hs]
    left
    rfl

theorem scramble_rotIter (g : Grid) (turns : Pos → Fin 4) (r c : Fin 5) :
    scramble g turns r c = rotIter (turns (r, c)).val (g r c) := rfl

theorem exists_unrot (g placed : Grid)
    (hg : ∀ r c : Fin 5, ∃ k, g r c = rotIter k (placed r c)) :
    ∃ rots : Pos → Fin 4,
      ∀ r c : Fin 5, rotIter (rots (r, c)).val (g r c) = placed r c := by
  refine ⟨fun p => ⟨(4 - (Classical.choose (hg p.1 p.2)) % 4) % 4, by omega⟩,
    fun r c => ?_⟩
  have hspec := Classical.choose_spec (hg r c)
  rw [hspec]
  exact rotIter_cancel _ _

theorem gen_traps_not_on_path (pick : ℕ → ℕ) (path : List Pos) (p : Pos)
    (hp : p ∈ gen_traps pick path) : p ∉ path := by
  unfold gen_traps place_traps at hp
  rw [List.mem_toFinset] at hp
  have hmem := sample_subset pick _ _ p hp
  rw [List.mem_filter] at hmem
  exact of_decide_eq_true hmem.2

/-- Two cells adjacent in the path sequence: they occupy consecutive
indices, in either order. -/
def seqAdj (l : List Pos) (p q : Pos) : Prop :=
  ∃ (j : ℕ) (h : j + 1 < l.length),
    (l.get ⟨j, by omega⟩ = p ∧ l.get ⟨j + 1, h⟩ = q) ∨
    (l.get ⟨j, by omega⟩ = q ∧ l.get ⟨j + 1, h⟩ = p)

/-- Direction from a path cell toward one of its neighbours in the path
sequence. -/
def seqDir (l : List Pos) (p : Pos) (d : Dir) : Prop :=
  ∃ q, step_pos p d = some q ∧ seqAdj l p q

theorem step_sum : ∀ (p : Pos) (d : Dir) (q : Pos), step_pos p d = some q →
    sumPos q = sumPos p + 1 ∨ sumPos p = sumPos q + 1 := by
  have h : ∀ (p : Pos) (d : Dir) (q : Pos), ¬ step_pos p d = some q ∨
      sumPos q = sumPos p + 1 ∨ sumPos p = sumPos q + 1 := by decide
  intro p d q hsp
  rcases h p d q with hne | hor
  · exact absurd hsp hne
  · exact hor

theorem monotone_get_sum (path : List Pos)
    (hhead : path.head? = some ENTRY) (hchain : List.Chain' unitStep path) :
    ∀ (j : ℕ) (hj : j < path.length), sumPos (path.get ⟨j, hj⟩) = j := by
  rcases path with _ | ⟨a, rest⟩
  · intro j hj
    simp at hj
  · simp only [List.head?_cons, Option.some.injEq] at hhead
    subst hhead
    intro j hj
    have h := chain_sum_get rest ENTRY hchain j hj
    have h0 : sumPos ENTRY = 0 := rfl
    omega

theorem mem_index_of_monotone (path : List Pos)
    (hhead : path.head? = some ENTRY) (hchain : List.Chain' unitStep path)
    (p : Pos) (hp : p ∈ path) :
    ∃ (h : sumPos p < path.length), path.get ⟨sumPos p, h⟩ = p := by
  obtain ⟨n, hn⟩ := List.mem_iff_get.mp hp
  have hsum : sumPos p = n.val := by
    rw [← hn]
    exact monotone_get_sum path hhead hchain n.val n.isLt
  have hfin : path.get ⟨sumPos p, by omega⟩ = path.get n := by
    congr 1
    exact Fin.ext hsum
  exact ⟨by omega, hfin.trans hn⟩

theorem neighbour_dirs_spec {l : List Pos} {p : Pos} {d : Dir}
    (hd : d ∈ neighbour_dirs l p) :
    ∃ q, step_pos p d = some q ∧ q ∈ l := by
  unfold neighbour_dirs at hd
  rw [List.mem_filter] at hd
  obtain ⟨-, hpred⟩ := hd
  revert hpred
  cases hsp : step_pos p d with
  | none => intro h; simp at h
  | some q => intro h; exact ⟨q, rfl, of_decide_eq_true h⟩

theorem seqDir_iff (path : List Pos)
    (hhead : path.head? = some ENTRY) (hchain : List.Chain' unitStep path)
    (p : Pos) (hp : p ∈ path) (d : Dir) :
    seqDir path p d ↔ d ∈ neighbour_dirs path p := by
  constructor
  · rintro ⟨q, hsp, j, h, ⟨h1, h2⟩ | ⟨h1, h2⟩⟩
    · exact mem_neighbour_dirs hsp (h2 ▸ List.get_mem _ _ _)
    · exact mem_neighbour_dirs hsp (h1 ▸ List.get_mem _ _ _)
  · intro hd
    obtain ⟨q, hsp, hq⟩ := neighbour_dirs_spec hd
    refine ⟨q, hsp, ?_⟩
    obtain ⟨hpb, hpget⟩ := mem_index_of_monotone path hhead hchain p hp
    obtain ⟨hqb, hqget⟩ := mem_index_of_monotone path hhead hchain q hq
    rcases step_sum p d q hsp with hsum | hsum
    · refine ⟨sumPos p, by omega, Or.inl ⟨hpget, ?_⟩⟩
      have heq : (⟨sumPos p + 1, by omega⟩ : Fin path.length)
          = ⟨sumPos q, hqb⟩ := Fin.ext (show sumPos p + 1 = sumPos q by omega)
      rw [heq]
      exact hqget
    · refine ⟨sumPos q, by omega, Or.inr ⟨hqget, ?_⟩⟩
      have heq : (⟨sumPos q + 1, by omega⟩ : Fin path.length)
          = ⟨sumPos p, hpb⟩ := Fin.ext (show sumPos q + 1 = sumPos p by omega)
      rw [heq]
      exact hpget

theorem all_cells_nodup : all_cells.Nodup := by decide

/-- Claim C1: for every 5 by 5 grid of the 11 tile variants and every trap
set, is_solved returns true exactly when EXIT is reachable from ENTRY by
unit steps in which the source cell's direction set contains the direction
of the move and the target cell's direction set contains the opposite
direction, ENTRY and EXIT counting as having all four directions on both
sides, and no traversed cell being a trap; the right-hand side mentions no
traversal order, so the result depends only on the grid and the traps. -/
theorem oracle_iff_reachable (grid : Grid) (traps : Finset Pos) :
    is_solved grid traps = true ↔ solvable grid traps :=
  is_solved_eq_true_iff grid traps

/-- Claim C3: for every path produced by the generator and every trap set
disjoint from it, placing the solution tiles over any initial grid yields
a grid the oracle accepts, so the assertion guarding the pre-scramble
grid never fails. -/
theorem pre_scramble_always_solvable (coins : ℕ → Bool) (g : Grid)
    (traps : Finset Pos)
    (hdisj : ∀ p ∈ build_solution_path coins, p ∉ traps) :
    is_solved (place_solution_tiles g (build_solution_path coins)) traps
      = true :=
  (is_solved_eq_true_iff _ _).mpr
    (placed_solvable _ g traps rfl (build_solution_path_last coins)
      (build_solution_path_chain coins) hdisj)

theorem pre_scramble_always_solvable_witness :
    is_solved
      (place_solution_tiles (fun _ _ => cross)
        (build_solution_path fun _ => false)) ∅ = true :=
  pre_scramble_always_solvable (fun _ => false) (fun _ _ => cross) ∅
    (by simp)

/-- Claim C4: every state produced by the full generation pipeline admits
an assignment of zero to three clockwise rotations per cell after which
the oracle accepts the grid. -/
theorem scrambled_puzzle_has_rotation_solution (coins : ℕ → Bool)
    (pick : ℕ → ℕ) (initGrid : Grid) (turns : Pos → Fin 4) (pickB : ℕ) :
    ∃ rots : Pos → Fin 4,
      is_solved
        (fun r c => rotIter (rots (r, c)).val
          ((circuit_override_setup coins pick initGrid turns pickB).1 r c))
        (circuit_override_setup coins pick initGrid turns pickB).2 = true := by
  have hproj1 : (circuit_override_setup coins pick initGrid turns pickB).1
      = break_if_solved
          (scramble (place_solution_tiles initGrid (build_solution_path coins))
            turns)
          (gen_traps pick (build_solution_path coins))
          (build_solution_path coins) pickB := rfl
  have hproj2 : (circuit_override_setup coins pick initGrid turns pickB).2
      = gen_traps pick (build_solution_path coins) := rfl
  have hg : ∀ r c : Fin 5, ∃ k,
      break_if_solved
        (scramble (place_solution_tiles initGrid (build_solution_path coins))
          turns)
        (gen_traps pick (build_solution_path coins))
        (build_solution_path coins) pickB r c
      = rotIter k
          (place_solution_tiles initGrid (build_solution_path coins) r c) := by
    intro r c
    rcases break_if_solved_cases
        (scramble (place_solution_tiles initGrid (build_solution_path coins))
          turns)
        (gen_traps pick (build_solution_path coins))
        (build_solution_path coins) pickB r c with h | h
    · exact ⟨(turns (r, c)).val, by rw [h]; rfl⟩
    · refine ⟨(turns (r, c)).val + 1, ?_⟩
      rw [h, scramble_rotIter, rotIter_map]
      rfl
  obtain ⟨rots, hrots⟩ := exists_unrot _ _ hg
  refine ⟨rots, ?_⟩
  have hfun : (fun r c => rotIter (rots (r, c)).val
      ((circuit_override_setup coins pick initGrid turns pickB).1 r c))
      = place_solution_tiles initGrid (build_solution_path coins) := by
    funext r c
    rw [hproj1]
    exact hrots r c
  rw [hfun, hproj2]
  exact (is_solved_eq_true_iff _ _).mpr
    (placed_solvable _ initGrid _ rfl (build_solution_path_last coins)
      (build_solution_path_chain coins)
      fun p hp ht => gen_traps_not_on_path pick _ p ht hp)

/-- Claim C5: the clockwise rotation map is total over the 11 variants,
closed over them, and applying it four times returns the original
variant. -/
theorem rotation_closed_period_four :
    ∀ t : Tile, ROTATION_MAP t ∈ TILES ∧
      ROTATION_MAP (ROTATION_MAP (ROTATION_MAP (ROTATION_MAP t))) = t := by
  decide

/-- Claim C6: every generated path starts at ENTRY, ends at EXIT, has
exactly 9 cells, advances one unit step downward or rightward at each
consecutive pair, and repeats no cell, for every outcome of the random
choices. -/
theorem generated_path_shape (coins : ℕ → Bool) :
    (build_solution_path coins).head? = some ENTRY ∧
    (build_solution_path coins).getLast? = some EXIT ∧
    (build_solution_path coins).length = 9 ∧
    List.Chain' unitStep (build_solution_path coins) ∧
    (build_solution_path coins).Nodup :=
  ⟨rfl, build_solution_path_last coins, build_solution_path_length coins,
   build_solution_path_chain coins,
   nodup_of_chain _ (build_solution_path_chain coins)⟩

/-- Claim C7: on every monotone ENTRY-to-EXIT path, placement gives each
path cell a tile whose connection set contains every direction toward a
sequence-neighbour of the cell and is of minimal size among the variants
with that property, and leaves every off-path cell unchanged. -/
theorem placement_minimal_superset (g : Grid) (path : List Pos)
    (hhead : path.head? = some ENTRY) (hlast : path.getLast? = some EXIT)
    (hchain : List.Chain' unitStep path) :
    (∀ p ∈ path,
      (∀ d, seqDir path p d →
        d ∈ CONNECTIONS (place_solution_tiles g path p.1 p.2)) ∧
      ∀ u : Tile, (∀ d, seqDir path p d → d ∈ CONNECTIONS u) →
        (CONNECTIONS (place_solution_tiles g path p.1 p.2)).length
          ≤ (CONNECTIONS u).length) ∧
    ∀ q : Pos, q ∉ path → place_solution_tiles g path q.1 q.2 = g q.1 q.2 := by
  have hnd : path.Nodup := nodup_of_chain path hchain
  refine ⟨?_, fun q hq => place_at_not_mem g path q hq⟩
  intro p hp
  rw [place_at_mem g path p hnd hp]
  constructor
  · intro d hd
    exact chooseTile_superset _ d ((seqDir_iff path hhead hchain p hp d).mp hd)
  · intro u hu
    apply chooseTile_min
    intro d hd
    exact hu d ((seqDir_iff path hhead hchain p hp d).mpr hd)

theorem placement_minimal_superset_witness :
    (∀ p ∈ build_solution_path (fun _ => false),
      (∀ d, seqDir (build_solution_path (fun _ => false)) p d →
        d ∈ CONNECTIONS (place_solution_tiles (fun _ _ => cross)
          (build_solution_path (fun _ => false)) p.1 p.2)) ∧
      ∀ u : Tile,
        (∀ d, seqDir (build_solution_path (fun _ => false)) p d →
          d ∈ CONNECTIONS u) →
        (CONNECTIONS (place_solution_tiles (fun _ _ => cross)
          (build_solution_path (fun _ => false)) p.1 p.2)).length
          ≤ (CONNECTIONS u).length) ∧
    ∀ q : Pos, q ∉ build_solution_path (fun _ => false) →
      place_solution_tiles (fun _ _ => cross)
        (build_solution_path (fun _ => false)) q.1 q.2 = cross :=
  placement_minimal_superset (fun _ _ => cross)
    (build_solution_path fun _ => false) rfl
    (build_solution_path_last fun _ => false)
    (build_solution_path_chain fun _ => false)

/-- Claim C8: trap placement returns exactly min(count, available
off-path cells) distinct positions, all off the path and in particular
neither ENTRY nor EXIT; an excessive request is capped, never an
error. -/
theorem trap_placement_capped (pick : ℕ → ℕ) (path : List Pos) (count : ℕ)
    (hE : ENTRY ∈ path) (hX : EXIT ∈ path) :
    (place_traps pick path count).length
      = min count (all_cells.filter (· ∉ path)).length ∧
    (place_traps pick path count).Nodup ∧
    ∀ p ∈ place_traps pick path count, p ∉ path ∧ p ≠ ENTRY ∧ p ≠ EXIT := by
  unfold place_traps
  refine ⟨sample_length pick _ _ (min_le_right _ _),
    sample_nodup pick _ _ (all_cells_nodup.filter _), ?_⟩
  intro p hp
  have hmem := sample_subset pick _ _ p hp
  rw [List.mem_filter] at hmem
  have hnp : p ∉ path := of_decide_eq_true hmem.2
  exact ⟨hnp, fun h => hnp (h ▸ hE), fun h => hnp (h ▸ hX)⟩

theorem trap_placement_capped_witness :
    (place_traps (fun _ => 0) [ENTRY, EXIT] 100).length
      = min 100 (all_cells.filter (· ∉ [ENTRY, EXIT])).length ∧
    (place_traps (fun _ => 0) [ENTRY, EXIT] 100).Nodup ∧
    ∀ p ∈ place_traps (fun _ => 0) [ENTRY, EXIT] 100,
      p ∉ [ENTRY, EXIT] ∧ p ≠ ENTRY ∧ p ≠ EXIT :=
  trap_placement_capped (fun _ => 0) [ENTRY, EXIT] 100 (by decide) (by decide)

/-- Claim C9: a rotation request outside the grid is rejected with no cell
changed, while a request at any in-range position always succeeds,
rotates exactly that cell and touches no other. -/
theorem rotate_range_checked (g : Grid) (row col : ℤ) :
    (¬(0 ≤ row ∧ row < 5 ∧ 0 ≤ col ∧ col < 5) → rotate_op g row col = none) ∧
    ∀ p : Pos, row = (p.1.val : ℤ) → col = (p.2.val : ℤ) →
      rotate_op g row col = some (rotate_tile g p) ∧
      rotate_tile g p p.1 p.2 = ROTATION_MAP (g p.1 p.2) ∧
      ∀ q : Pos, q ≠ p → rotate_tile g p q.1 q.2 = g q.1 q.2 := by
  constructor
  · intro h
    unfold rotate_op
    rw [dif_neg h]
  · intro p hrow hcol
    refine ⟨?_, setTile_same g p _, fun q hq => setTile_other g p q _ hq⟩
    unfold rotate_op
    have hcond : 0 ≤ row ∧ row < 5 ∧ 0 ≤ col ∧ col < 5 := by
      subst hrow
      subst hcol
      have h1 := p.1.isLt
      have h2 := p.2.isLt
      omega
    rw [dif_pos hcond]
    have hpos : ((⟨row.toNat, by omega⟩, ⟨col.toNat, by omega⟩) : Pos) = p := by
      apply Prod.ext <;> apply Fin.ext <;> simp [hrow, hcol]
    exact congrArg (fun z => some (rotate_tile g z)) hpos

theorem rotate_range_checked_witness :
    rotate_op (fun _ _ => cross) (-1) 2 = none ∧
    rotate_op (fun _ _ => cross) 1 2
      = some (rotate_tile (fun _ _ => cross) (⟨1, by omega⟩, ⟨2, by omega⟩)) :=
  ⟨(rotate_range_checked (fun _ _ => cross) (-1) 2).1 (by decide),
   ((rotate_range_checked (fun _ _ => cross) 1 2).2
     (⟨1, by omega⟩, ⟨2, by omega⟩) (by decide) (by decide)).1⟩

/-- Claim C10: rotating a tile maps its connection set through the
clockwise turn on directions: a direction is open on the rotated tile
exactly when it is the clockwise image of a direction open on the
original tile. -/
theorem rotation_maps_connections_clockwise :
    ∀ (t : Tile) (d : Dir),
      d ∈ CONNECTIONS (ROTATION_MAP t) ↔
        ∃ e ∈ CONNECTIONS t, clockwiseDir e = d := by
  decide

/-- Coin oracle of the counterexample run: always move right when both
moves are possible, giving the path along the top row and the right
column. -/
def cexCoins : ℕ → Bool := fun _ => false

/-- Sample oracle of the counterexample run: always index 12, drawing the
three bottom-row cells (4,0), (4,1), (4,2). -/
def cexPick : ℕ → ℕ := fun _ => 12

/-- Initial random grid of the counterexample run: every cell a cross. -/
def cexGrid : Grid := fun _ _ => cross

/-- Turn counts of the counterexample run: zero everywhere, so the
scramble leaves the grid unchanged. -/
def cexTurns : Pos → Fin 4 := fun _ => 0

/-- The path the counterexample coins produce. -/
def cexPath : List Pos :=
  [(⟨0, by omega⟩, ⟨0, by omega⟩), (⟨0, by omega⟩, ⟨1, by omega⟩),
   (⟨0, by omega⟩, ⟨2, by omega⟩), (⟨0, by omega⟩, ⟨3, by omega⟩),
   (⟨0, by omega⟩, ⟨4, by omega⟩), (⟨1, by omega⟩, ⟨4, by omega⟩),
   (⟨2, by omega⟩, ⟨4, by omega⟩), (⟨3, by omega⟩, ⟨4, by omega⟩),
   (⟨4, by omega⟩, ⟨4, by omega⟩)]

/-- The grid after solution tiles are placed over the all-cross grid along
the counterexample path. -/
def cexPlaced : Grid := fun r c =>
  match r.val, c.val with
  | 0, 4 => cornerSW
  | 0, _ => hbar
  | _, 4 => vbar
  | _, _ => cross

/-- The trap set the counterexample pick oracle draws. -/
def cexTraps : Finset Pos :=
  {(⟨4, by omega⟩, ⟨0, by omega⟩), (⟨4, by omega⟩, ⟨1, by omega⟩),
   (⟨4, by omega⟩, ⟨2, by omega⟩)}

/-- Claim C2 evidence: one complete outcome of the generation pipeline
(all-right path, bottom-row traps, all-cross initial grid, zero scramble
turns, break choice 0) ends with the break fallback rotating the path
cell (0,1), yet the resulting initial state is still solved, because the
untouched cross tiles off the path connect ENTRY to EXIT around the
broken cell.  This contradicts the post-scramble unsolved guarantee. -/
theorem scramble_break_can_leave_solved :
    is_solved (circuit_override_setup cexCoins cexPick cexGrid cexTurns 0).1
      (circuit_override_setup cexCoins cexPick cexGrid cexTurns 0).2 = true := by
  have hp : build_solution_path cexCoins = cexPath := by decide
  have hplace : place_solution_tiles cexGrid cexPath = cexPlaced := by
    funext r c
    revert r c
    decide
  have hsc : scramble cexPlaced cexTurns = cexPlaced :=
    funext fun r => funext fun c => rfl
  have htraps : gen_traps cexPick cexPath = cexTraps := by decide
  have hsolved : is_solved cexPlaced cexTraps = true := by decide
  simp only [circuit_override_setup]
  rw [hp, hplace, hsc, htraps]
  simp only [break_if_solved]
  rw [if_pos hsolved]
  rw [dif_pos (show List.filter (fun q => decide (q ≠ ENTRY ∧ q ≠ EXIT))
    cexPath ≠ [] by decide)]
  decide
